import Mathlib

/-!  Shallow embedding of the correlation-function inversion engine of
`cfi_dac.py` (the function `cfi`, source lines 127-320), over exact rational
arithmetic.  The measurement table, the lag specification, the hour-of-day
filter, the windowed pair search with its string-keyed deduplication, the
48-bin diurnal histogram with linear interpolation, the design matrices and
the least-squares inversion are translated from the source.

Modelling conventions:
* Machine floating point is modelled as ideal real arithmetic restricted
  to `ℚ`.  The constant `2 * n.pi` of the source appears only as a factor in
  the observation vector; it is threaded through as an explicit parameter
  `twopi`, and every theorem quantifies over it, so each result holds in
  particular for the real value of `2 * pi`.
* The source compares `n.sqrt(S)` against bounds; since `S ≥ 0` these
  comparisons are equivalent to comparisons of squares, which is how they
  are embedded (`ltSqrtB`, `sqrtLtB`); lemmas `ltSqrtB_iff_real` and
  `sqrtLtB_iff_real` prove the equivalence with `Real.sqrt`.
* The all-NaN `acf`/`err` vectors produced by the bare `except:` branch are
  modelled as `none`; numeric success is `some (acf, errSq)` where `errSq`
  holds the squares of the returned error entries (the source stores
  `err = sqrt(errSq)`, which is irrational in general).  Likewise
  `n.mean` of an empty list (NaN) is modelled as `none`.
* `n.max` / `n.min` of a zero-size array raise `ValueError` in numpy; this
  is the only raise that can escape `cfi`, and it is modelled by
  `Except.error ()`.
* `numpy.linalg.lstsq` returns the least-squares minimizer; it is embedded
  through the normal equations `xhat = (AᵀA)⁻¹ Aᵀ m`, guarded by
  `det (AᵀA) ≠ 0`.  The `try/except` of the source fails exactly when
  `inv(AoᵀAo)` is singular; in every reachable state the two determinant
  conditions agree because all diurnal weights are positive.
* The string-keyed pair dictionary (`"%d-%d" % (k, l)`) is modelled as a
  list of ordered index pairs; the decimal encoding is injective, so
  membership agrees.
-/

namespace CfiDac

/-- Flat-earth km-per-degree latitude scale (source line 29). -/
def latdeg2km : ℚ := 111.321

/-- Flat-earth km-per-degree longitude scale (source line 30). -/
def londeg2km : ℚ := 65.122785

/-- One measurement of the Measurement Table: time (s), latitude and
longitude (deg), height (km), the three Bragg vector components and the
Doppler value.  The per-measurement arrays of the source are parallel, so
one record per index is an equivalent layout. -/
structure Meas where
  t : ℚ
  lat : ℚ
  lon : ℚ
  height : ℚ
  bu : ℚ
  bv : ℚ
  bw : ℚ
  dop : ℚ
deriving DecidableEq

instance : Inhabited Meas := ⟨⟨0, 0, 0, 0, 0, 0, 0, 0⟩⟩

/-- The Lag Specification: the keyword parameters of `cfi`
(source lines 127-146), in source order. -/
structure LagSpec where
  h0 : ℚ
  dh : ℚ
  ds_z : ℚ
  s_z : ℚ
  s_x : ℚ
  ds_x : ℚ
  s_y : ℚ
  ds_y : ℚ
  s_h : ℚ
  ds_h : ℚ
  tau : ℚ
  dtau : ℚ
  horizontal_dist : Bool
  hour_of_day : ℚ
  dhour_of_day : ℚ
deriving DecidableEq

/-- numpy-style floored modulus on rationals: `n.mod x m = x - m * ⌊x / m⌋`. -/
def qmod (x m : ℚ) : ℚ := x - m * ⌊x / m⌋

/-- Hour of day of a time in seconds: `n.mod (t / 3600, 24)` (source line 161). -/
def hodOf (t : ℚ) : ℚ := qmod (t / 3600) 24

/-- The hour-of-day restriction (source lines 161-170):
keep the measurements with `|hod - hour_of_day| <= dhour_of_day / 2`.
The comparison in the source is a plain absolute difference of the two
hour values, with no wrap-around at midnight. -/
def workingSet (mt : List Meas) (s : LagSpec) : List Meas :=
  mt.filter fun x => decide (|hodOf x.t - s.hour_of_day| ≤ s.dhour_of_day / 2)

/-- Access of the parallel arrays at index `i` (out-of-range indices are
never produced by the pair search; `getD` keeps the function total). -/
def mAt (ws : List Meas) (i : ℕ) : Meas := ws.getD i default

/-- `n.min(t)` over a nonempty working set. -/
def tMinD (ws : List Meas) : ℚ :=
  match ws with
  | [] => 0
  | w :: r => (r.map Meas.t).foldl min w.t

/-- `n.max(t)` over a nonempty working set. -/
def tMaxD (ws : List Meas) : ℚ :=
  match ws with
  | [] => 0
  | w :: r => (r.map Meas.t).foldl max w.t

/-- Python `int()` truncation toward zero of a rational. -/
def pyint (q : ℚ) : ℤ := if 0 ≤ q then ⌊q⌋ else -⌊-q⌋

/-- `n_times = int((n.max(t) - n.min(t)) / dtau)` (source line 187). -/
def nTimes (ws : List Meas) (s : LagSpec) : ℕ :=
  (pyint ((tMaxD ws - tMinD ws) / s.dtau)).toNat

/-- Does `q < sqrt S` hold?  For `S ≥ 0` this is `q < 0 ∨ q² < S`. -/
def ltSqrtB (q S : ℚ) : Bool := decide (q < 0) || decide (q ^ 2 < S)

/-- Does `sqrt S < q` hold?  For `S ≥ 0` this is `0 < q ∧ S < q²`. -/
def sqrtLtB (S q : ℚ) : Bool := decide (0 < q) && decide (S < q ^ 2)

/-- Does `|sqrt S - c| < d` hold, via the two one-sided square comparisons. -/
def absSqrtLtB (S c d : ℚ) : Bool := ltSqrtB (c - d) S && sqrtLtB S (c + d)

/-- Squared flat-earth horizontal distance between working-set entries
`k` and `l`; the source compares `n.sqrt` of this quantity
(lines 216 and 226). -/
def distSq (ws : List Meas) (k l : ℕ) : ℚ :=
  (latdeg2km * ((mAt ws l).lat - (mAt ws k).lat)) ^ 2 +
    (londeg2km * ((mAt ws l).lon - (mAt ws k).lon)) ^ 2

/-- The per-window reference-set membership test (source line 198):
height in the reference band and time strictly inside the window. -/
def refOk (ws : List Meas) (s : LagSpec) (it0 it1 : ℚ) (k : ℕ) : Bool :=
  decide (s.h0 - s.dh * 0.5 < (mAt ws k).height) &&
  decide ((mAt ws k).height < s.h0 + s.dh * 0.5) &&
  decide (it0 < (mAt ws k).t) && decide ((mAt ws k).t < it1)

/-- The per-window lagged-set membership test (source line 199):
height in the band shifted by `s_z` and time in the window shifted by `tau`. -/
def lagOk (ws : List Meas) (s : LagSpec) (it0 it1 : ℚ) (l : ℕ) : Bool :=
  decide (s.h0 + s.s_z - 0.5 * s.dh < (mAt ws l).height) &&
  decide ((mAt ws l).height < s.h0 + s.s_z + 0.5 * s.dh) &&
  decide (it0 + s.tau < (mAt ws l).t) && decide ((mAt ws l).t < it1 + s.tau)

/-- The spatial lag window (source lines 215-218): either the horizontal
distance window `|sqrt S - s_h| < ds_h / 2`, or the separate north/east
offset windows. -/
def spatialOk (ws : List Meas) (s : LagSpec) (k l : ℕ) : Bool :=
  if s.horizontal_dist then
    absSqrtLtB (distSq ws k l) s.s_h (s.ds_h / 2)
  else
    decide (|latdeg2km * ((mAt ws l).lat - (mAt ws k).lat) - s.s_y| < s.ds_y / 2) &&
    decide (|londeg2km * ((mAt ws l).lon - (mAt ws k).lon) - s.s_x| < s.ds_x / 2)

/-- The remaining pairwise filters of `idxt` (source lines 220-223):
vertical lag window, exclusion of `l = k`, temporal lag window. -/
def pairOkB (ws : List Meas) (s : LagSpec) (k l : ℕ) : Bool :=
  spatialOk ws s k l &&
  decide (|(mAt ws l).height - (mAt ws k).height - s.s_z| < s.ds_z / 2) &&
  decide (l ≠ k) &&
  decide (|(mAt ws l).t - (mAt ws k).t - s.tau| < s.dtau / 2)

/-- The degeneracy floors (source line 228):
`hor_dist > 2.0 and n.abs(t[l]-t[k]) > 2.0`. -/
def floorsOkB (ws : List Meas) (k l : ℕ) : Bool :=
  ltSqrtB 2 (distSq ws k l) && decide ((2 : ℚ) < |(mAt ws l).t - (mAt ws k).t|)

/-- Lower window bound `it0 = i * dtau + t0` (source line 191). -/
def winLo (t0 : ℚ) (s : LagSpec) (i : ℕ) : ℚ := i * s.dtau + t0

/-- Upper window bound (source lines 192-195): the final window extends to
`n.max(t)`, the others end at `i * dtau + 2 * dtau + t0`. -/
def winHi (t0 tmax : ℚ) (s : LagSpec) (nT : ℕ) (i : ℕ) : ℚ :=
  if i = nT - 1 then tmax else i * s.dtau + 2 * s.dtau + t0

/-- The reference index set `idx0` of a window (source line 198). -/
def idx0 (ws : List Meas) (s : LagSpec) (it0 it1 : ℚ) : List ℕ :=
  (List.range ws.length).filter (refOk ws s it0 it1)

/-- The lagged candidate index set `idxt` for reference `k`
(source lines 199 and 220-223). -/
def idxt (ws : List Meas) (s : LagSpec) (it0 it1 : ℚ) (k : ℕ) : List ℕ :=
  ((List.range ws.length).filter (lagOk ws s it0 it1)).filter (pairOkB ws s k)

/-- All candidate ordered pairs, enumerated in the loop order of the
source (windows outermost, then the reference index, then the lagged
index; source lines 190-224). -/
def candidates (ws : List Meas) (s : LagSpec) : List (ℕ × ℕ) :=
  let t0 := tMinD ws
  let tmax := tMaxD ws
  let nT := nTimes ws s
  (List.range nT).flatMap fun i =>
    (idx0 ws s (winLo t0 s i) (winHi t0 tmax s nT i)).flatMap fun k =>
      (idxt ws s (winLo t0 s i) (winHi t0 tmax s nT i) k).map fun l => (k, l)

/-- The per-pair record appended by the accepting branch
(source lines 231-237).  `shSq` stores the square of the appended
`hor_dist`. -/
structure PairRec where
  k : ℕ
  l : ℕ
  tod : ℚ
  tauR : ℚ
  szR : ℚ
  sxR : ℚ
  syR : ℚ
  shSq : ℚ
deriving DecidableEq

instance : Inhabited PairRec := ⟨⟨0, 0, 0, 0, 0, 0, 0, 0⟩⟩

/-- Build the record of an accepted pair `(k, l)` (source lines 231-237). -/
def mkRec (ws : List Meas) (k l : ℕ) : PairRec :=
  ⟨k, l, (mAt ws k).t, (mAt ws l).t - (mAt ws k).t,
    (mAt ws l).height - (mAt ws k).height,
    londeg2km * ((mAt ws l).lon - (mAt ws k).lon),
    latdeg2km * ((mAt ws l).lat - (mAt ws k).lat),
    distSq ws k l⟩

/-- The mutable state of the accepting loop: the pair dictionary (both
orders of every accepted pair) and the accepted records in order. -/
structure PairState where
  dict : List (ℕ × ℕ)
  recs : List PairRec
deriving DecidableEq

/-- One iteration of the accepting loop (source lines 224-237): skip if the
ordered pair is already keyed, then apply the 2 km / 2 s floors, then key
both orders and append the record. -/
def pairStep (ws : List Meas) (st : PairState) (kl : ℕ × ℕ) : PairState :=
  if kl ∈ st.dict then st
  else if floorsOkB ws kl.1 kl.2 then
    ⟨(kl.1, kl.2) :: (kl.2, kl.1) :: st.dict, st.recs ++ [mkRec ws kl.1 kl.2]⟩
  else st

/-- The accepted pair records of one invocation, in acceptance order. -/
def recsOf (mt : List Meas) (s : LagSpec) : List PairRec :=
  ((candidates (workingSet mt s) s).foldl (pairStep (workingSet mt s)) ⟨[], []⟩).recs

/-- The accepted ordered index pairs (the `pairs` list of the source). -/
def pairsOf (mt : List Meas) (s : LagSpec) : List (ℕ × ℕ) :=
  (recsOf mt s).map fun r => (r.k, r.l)

/-- Number of accepted pairs (`n_meas`, source line 257). -/
def numPairs (mt : List Meas) (s : LagSpec) : ℕ := (recsOf mt s).length

/-- The histogram data: hour of day of the reference time of every
accepted pair, `n.mod(tods / 3600.0, 24)` (source line 243). -/
def todHours (mt : List Meas) (s : LagSpec) : List ℚ :=
  (recsOf mt s).map fun r => hodOf r.tod

/-- Lower edge of the numpy histogram range: the data minimum, expanded by
0.5 when the data are constant, and `(0, 1)` for empty data
(numpy `histogram` defaults). -/
def histLo (data : List ℚ) : ℚ :=
  match data with
  | [] => 0
  | d :: r => if r.foldl min d = r.foldl max d then r.foldl min d - 0.5 else r.foldl min d

/-- Upper edge of the numpy histogram range. -/
def histHi (data : List ℚ) : ℚ :=
  match data with
  | [] => 1
  | d :: r => if r.foldl min d = r.foldl max d then r.foldl max d + 0.5 else r.foldl max d

/-- Edge `i` of the 48 equal histogram bins over `[lo, hi]`. -/
def binEdge (lo hi : ℚ) (i : ℕ) : ℚ := lo + (hi - lo) * i / 48

/-- Count of bin `j` of the numpy histogram: half-open bins, except the
last bin which includes its right edge. -/
def binCnt (data : List ℚ) (j : ℕ) : ℕ :=
  (data.filter fun x =>
    decide (binEdge (histLo data) (histHi data) j ≤ x) &&
      (if j = 47 then decide (x ≤ binEdge (histLo data) (histHi data) 48)
       else decide (x < binEdge (histLo data) (histHi data) (j + 1)))).length

/-- The 48 bin counts with the floor `thist[thist < 1.0] = 1.0`
(source line 249). -/
def thistOf (data : List ℚ) : List ℚ :=
  (List.range 48).map fun j => max 1 ((binCnt data j : ℚ))

/-- The 48 interpolation nodes: bin centers, with the first anchored to
hour 0 and the last to hour 24 (source lines 250-254). -/
def tbins2Of (data : List ℚ) : List ℚ :=
  (List.range 48).map fun j =>
    if j = 0 then 0
    else if j = 47 then 24
    else 0.5 * (binEdge (histLo data) (histHi data) j +
      binEdge (histLo data) (histHi data) (j + 1))

/-- Insertion of one node into an x-sorted node list. -/
def insNode (p : ℚ × ℚ) : List (ℚ × ℚ) → List (ℚ × ℚ)
  | [] => [p]
  | q :: r => if p.1 ≤ q.1 then p :: q :: r else q :: insNode p r

/-- Sort interpolation nodes by x (scipy `interp1d` argsorts its nodes). -/
def sortNodes (l : List (ℚ × ℚ)) : List (ℚ × ℚ) := l.foldr insNode []

/-- Piecewise-linear interpolation through an x-sorted node list, as
`scipy.interpolate.interp1d(x, y)` evaluates inside its domain.  In every
evaluation performed by `cfi` the query lies between the anchored nodes
0 and 24, so the out-of-range behavior of this function is never used. -/
def interpPts : List (ℚ × ℚ) → ℚ → ℚ
  | [], _ => 0
  | [p], _ => p.2
  | p :: q :: r, x =>
    if x ≤ q.1 then p.2 + (q.2 - p.2) * (x - p.1) / (q.1 - p.1)
    else interpPts (q :: r) x

/-- The interpolated bin-count function `countf` (source line 255). -/
def countfData (data : List ℚ) (x : ℚ) : ℚ :=
  interpPts (sortNodes ((tbins2Of data).zip (thistOf data))) x

/-- `countf` of one invocation, built over the accepted-pair hour data. -/
def countfOf (mt : List Meas) (s : LagSpec) (x : ℚ) : ℚ :=
  countfData (todHours mt s) x

/-- The per-pair diurnal weights
`w = 1.0 / countf(n.mod((t[k] - t0) / 3600, 24.0))` (source line 273).
Note the query coordinate is hours since `t0 = n.min(t)`, not hour of day. -/
def weightsOf (mt : List Meas) (s : LagSpec) : List ℚ :=
  (recsOf mt s).map fun r =>
    1 / countfOf mt s (qmod ((r.tod - tMinD (workingSet mt s)) / 3600) 24)

/-- The design-matrix row of a pair: the products of Bragg components in
the fixed order uu, vv, ww, uv, uw, vw (source lines 275-291). -/
def rowOf (ws : List Meas) (k l : ℕ) : Fin 6 → ℚ :=
  ![(mAt ws k).bu * (mAt ws l).bu,
    (mAt ws k).bv * (mAt ws l).bv,
    (mAt ws k).bw * (mAt ws l).bw,
    (mAt ws k).bu * (mAt ws l).bv + (mAt ws k).bv * (mAt ws l).bu,
    (mAt ws k).bu * (mAt ws l).bw + (mAt ws k).bw * (mAt ws l).bu,
    (mAt ws k).bv * (mAt ws l).bw + (mAt ws k).bw * (mAt ws l).bv]

/-- Row `p` of the unweighted design matrix `Ao`. -/
def AoEnt (mt : List Meas) (s : LagSpec) (p : ℕ) : Fin 6 → ℚ :=
  rowOf (workingSet mt s) ((recsOf mt s).getD p default).k ((recsOf mt s).getD p default).l

/-- The weight applied to row `p`. -/
def wAt (mt : List Meas) (s : LagSpec) (p : ℕ) : ℚ := (weightsOf mt s).getD p 0

/-- Row `p` of the weighted design matrix `A` (source lines 275-291). -/
def AEnt (mt : List Meas) (s : LagSpec) (p : ℕ) : Fin 6 → ℚ :=
  fun j => wAt mt s p * rowOf (workingSet mt s) ((recsOf mt s).getD p default).k
    ((recsOf mt s).getD p default).l j

/-- Entry `p` of the unweighted observation vector
`mo = (2 pi)² * dop(k) * dop(l)` (source line 294). -/
def moEnt (twopi : ℚ) (mt : List Meas) (s : LagSpec) (p : ℕ) : ℚ :=
  twopi ^ 2 * (mAt (workingSet mt s) ((recsOf mt s).getD p default).k).dop *
    (mAt (workingSet mt s) ((recsOf mt s).getD p default).l).dop

/-- Entry `p` of the weighted observation vector (source line 293). -/
def mEnt (twopi : ℚ) (mt : List Meas) (s : LagSpec) (p : ℕ) : ℚ :=
  wAt mt s p * (twopi ^ 2 * (mAt (workingSet mt s) ((recsOf mt s).getD p default).k).dop *
    (mAt (workingSet mt s) ((recsOf mt s).getD p default).l).dop)

/-- The 6×6 Gram matrix `MᵀM` of a design matrix with `nr` rows. -/
def gramOf (nr : ℕ) (M : ℕ → Fin 6 → ℚ) : Matrix (Fin 6) (Fin 6) ℚ :=
  Matrix.of fun i j => ∑ p ∈ Finset.range nr, M p i * M p j

/-- `Mᵀ v` for a design matrix with `nr` rows. -/
def atv (nr : ℕ) (M : ℕ → Fin 6 → ℚ) (v : ℕ → ℚ) : Fin 6 → ℚ :=
  fun j => ∑ p ∈ Finset.range nr, M p j * v p

/-- The explicit adjugate inverse `det⁻¹ • adjugate`, equal to `M⁻¹`
whenever `det M ≠ 0`. -/
def invMat (M : Matrix (Fin 6) (Fin 6) ℚ) : Matrix (Fin 6) (Fin 6) ℚ :=
  M.det⁻¹ • M.adjugate

/-- The inversion step (source lines 295-309): solve the weighted system by
least squares, form the unweighted residual, and scale the diagonal of
`(AoᵀAo)⁻¹` by the squared noise estimate `(3 sqrt(mean r²))² = 9 mean r²`.
`none` models the all-NaN branch of the bare `except:`; per the module
conventions, success is guarded by both Gram determinants. -/
def solveLS (nr : ℕ) (A : ℕ → Fin 6 → ℚ) (mv : ℕ → ℚ)
    (Ao : ℕ → Fin 6 → ℚ) (mov : ℕ → ℚ) : Option ((Fin 6 → ℚ) × (Fin 6 → ℚ)) :=
  if (gramOf nr A).det = 0 ∨ (gramOf nr Ao).det = 0 then none
  else
    some ((invMat (gramOf nr A)).mulVec (atv nr A mv),
      fun j => 9 * ((∑ p ∈ Finset.range nr,
        (mov p - ∑ i : Fin 6,
          Ao p i * ((invMat (gramOf nr A)).mulVec (atv nr A mv)) i) ^ 2) / nr) *
        invMat (gramOf nr Ao) j j)

/-- The `acf` / squared-`err` pair of one invocation. -/
def solOf (twopi : ℚ) (mt : List Meas) (s : LagSpec) : Option ((Fin 6 → ℚ) × (Fin 6 → ℚ)) :=
  solveLS (numPairs mt s) (AEnt mt s) (mEnt twopi mt s) (AoEnt mt s) (moEnt twopi mt s)

/-- `n.mean` of a list, with NaN on empty data modelled as `none`. -/
def meanQ (l : List ℚ) : Option ℚ :=
  if l = [] then none else some (l.sum / l.length)

/-- The value returned by `cfi` (source line 320): the `acf` and `err`
vectors (as `sol`, `none` when all-NaN) and the mean realized lags.  The
source also returns `n.mean(s_hs)`, the mean of the square roots of
`shSqs`, which is irrational in general; the list of squared distances is
returned instead. -/
structure CfiResult where
  sol : Option ((Fin 6 → ℚ) × (Fin 6 → ℚ))
  mean_tau : Option ℚ
  mean_sx : Option ℚ
  mean_sy : Option ℚ
  mean_sz : Option ℚ
  shSqs : List ℚ
deriving DecidableEq

/-- The core inversion `cfi` (source lines 127-320).  On an empty working
set, `n.max(t)` at source line 187 raises `ValueError`, modelled by
`Except.error ()`. -/
def cfi (twopi : ℚ) (mt : List Meas) (s : LagSpec) : Except Unit CfiResult :=
  if (workingSet mt s).isEmpty then Except.error ()
  else Except.ok
    ⟨solOf twopi mt s,
      meanQ ((recsOf mt s).map PairRec.tauR),
      meanQ ((recsOf mt s).map PairRec.sxR),
      meanQ ((recsOf mt s).map PairRec.syR),
      meanQ ((recsOf mt s).map PairRec.szR),
      (recsOf mt s).map PairRec.shSq⟩

/-! ## Helper lemmas: square-comparison predicates versus `Real.sqrt` -/

/-- `ltSqrtB q S` decides `q < Real.sqrt S`. -/
theorem ltSqrtB_iff_real {q S : ℚ} :
    ltSqrtB q S = true ↔ (q : ℝ) < Real.sqrt (S : ℝ) := by
  unfold ltSqrtB
  simp only [Bool.or_eq_true, decide_eq_true_eq]
  constructor
  · rintro (h | h)
    · exact lt_of_lt_of_le (by exact_mod_cast h) (Real.sqrt_nonneg _)
    · refine Real.lt_sqrt_of_sq_lt ?_
      exact_mod_cast h
  · intro h
    rcases lt_or_le q 0 with hq | hq
    · exact Or.inl hq
    · right
      have hq2 : ((q : ℝ)) ^ 2 < (S : ℝ) := (Real.lt_sqrt (by exact_mod_cast hq)).1 h
      exact_mod_cast hq2

/-- `sqrtLtB S q` decides `Real.sqrt S < q`. -/
theorem sqrtLtB_iff_real {S q : ℚ} :
    sqrtLtB S q = true ↔ Real.sqrt (S : ℝ) < (q : ℝ) := by
  unfold sqrtLtB
  simp only [Bool.and_eq_true, decide_eq_true_eq]
  constructor
  · rintro ⟨hq, h⟩
    refine (Real.sqrt_lt' (by exact_mod_cast hq)).2 ?_
    exact_mod_cast h
  · intro h
    have hq : (0 : ℝ) < (q : ℝ) := lt_of_le_of_lt (Real.sqrt_nonneg _) h
    refine ⟨by exact_mod_cast hq, ?_⟩
    have h2 : (S : ℝ) < (q : ℝ) ^ 2 := (Real.sqrt_lt' hq).1 h
    exact_mod_cast h2

/-- `absSqrtLtB S c d` decides `|Real.sqrt S - c| < d`. -/
theorem absSqrtLtB_iff_real {S c d : ℚ} :
    absSqrtLtB S c d = true ↔ |Real.sqrt (S : ℝ) - (c : ℝ)| < (d : ℝ) := by
  unfold absSqrtLtB
  rw [Bool.and_eq_true, ltSqrtB_iff_real, sqrtLtB_iff_real, abs_sub_lt_iff]
  push_cast
  constructor
  · rintro ⟨h1, h2⟩
    exact ⟨by linarith, by linarith⟩
  · rintro ⟨h1, h2⟩
    exact ⟨by linarith, by linarith⟩

/-- The squared horizontal distance is nonnegative. -/
theorem distSq_nonneg (ws : List Meas) (k l : ℕ) : 0 ≤ distSq ws k l := by
  unfold distSq
  positivity

/-- The squared horizontal distance is symmetric in the two indices. -/
theorem distSq_comm (ws : List Meas) (k l : ℕ) : distSq ws l k = distSq ws k l := by
  unfold distSq
  ring

/-! ## Helper lemmas: membership extraction for the pair search -/

/-- Unfold membership in the reference index set `idx0`. -/
theorem mem_idx0 {ws : List Meas} {s : LagSpec} {it0 it1 : ℚ} {k : ℕ}
    (h : k ∈ idx0 ws s it0 it1) : k < ws.length ∧ refOk ws s it0 it1 k = true := by
  simpa [idx0, List.mem_filter, List.mem_range] using h

/-- Unfold membership in the lagged candidate set `idxt`. -/
theorem mem_idxt {ws : List Meas} {s : LagSpec} {it0 it1 : ℚ} {k l : ℕ}
    (h : l ∈ idxt ws s it0 it1 k) :
    l < ws.length ∧ lagOk ws s it0 it1 l = true ∧ pairOkB ws s k l = true := by
  simp only [idxt, List.mem_filter, List.mem_range] at h
  exact ⟨h.1.1, h.1.2, h.2⟩

/-- Every candidate pair comes from some window, with the reference index
in `idx0` and the lagged index in `idxt`. -/
theorem mem_candidates {ws : List Meas} {s : LagSpec} {k l : ℕ}
    (h : (k, l) ∈ candidates ws s) :
    ∃ i, i < nTimes ws s ∧
      k ∈ idx0 ws s (winLo (tMinD ws) s i) (winHi (tMinD ws) (tMaxD ws) s (nTimes ws s) i) ∧
      l ∈ idxt ws s (winLo (tMinD ws) s i) (winHi (tMinD ws) (tMaxD ws) s (nTimes ws s) i) k := by
  simp only [candidates, List.mem_flatMap, List.mem_map, List.mem_range] at h
  obtain ⟨i, hi, k', hk', l', hl', heq⟩ := h
  have hk : k' = k := congrArg Prod.fst heq
  have hl : l' = l := congrArg Prod.snd heq
  subst hk
  subst hl
  exact ⟨i, hi, hk', hl'⟩

/-- The accepting fold only appends records of candidates that pass the
floors, and records them through `mkRec`. -/
theorem recs_mem_fold (ws : List Meas) (cands : List (ℕ × ℕ)) (st : PairState)
    (r : PairRec) (hr : r ∈ (cands.foldl (pairStep ws) st).recs) :
    r ∈ st.recs ∨ ∃ k l, (k, l) ∈ cands ∧ r = mkRec ws k l ∧ floorsOkB ws k l = true := by
  induction cands generalizing st with
  | nil => exact Or.inl hr
  | cons c cs ih =>
    rcases ih (pairStep ws st c) hr with h | ⟨k, l, hm, he, hf⟩
    · by_cases h1 : c ∈ st.dict
      · rw [pairStep, if_pos h1] at h
        exact Or.inl h
      · by_cases h2 : floorsOkB ws c.1 c.2 = true
        · rw [pairStep, if_neg h1, if_pos h2] at h
          rcases List.mem_append.1 h with h3 | h3
          · exact Or.inl h3
          · refine Or.inr ⟨c.1, c.2, ?_, ?_, h2⟩
            · simp
            · simpa using h3
        · rw [pairStep, if_neg h1, if_neg h2] at h
          exact Or.inl h
    · exact Or.inr ⟨k, l, List.mem_cons_of_mem _ hm, he, hf⟩

/-- Every accepted record comes from a candidate pair that passed the
2 km / 2 s floors. -/
theorem recsOf_mem {mt : List Meas} {s : LagSpec} {r : PairRec} (hr : r ∈ recsOf mt s) :
    ∃ k l, (k, l) ∈ candidates (workingSet mt s) s ∧
      r = mkRec (workingSet mt s) k l ∧ floorsOkB (workingSet mt s) k l = true := by
  rcases recs_mem_fold _ _ _ _ hr with h | h
  · simp at h
  · exact h

/-- Split the reference test into its height band. -/
theorem refOk_height {ws : List Meas} {s : LagSpec} {it0 it1 : ℚ} {k : ℕ}
    (h : refOk ws s it0 it1 k = true) :
    s.h0 - s.dh * 0.5 < (mAt ws k).height ∧ (mAt ws k).height < s.h0 + s.dh * 0.5 := by
  simp only [refOk, Bool.and_eq_true, decide_eq_true_eq] at h
  tauto

/-- Split the lagged test into its height band. -/
theorem lagOk_height {ws : List Meas} {s : LagSpec} {it0 it1 : ℚ} {l : ℕ}
    (h : lagOk ws s it0 it1 l = true) :
    s.h0 + s.s_z - 0.5 * s.dh < (mAt ws l).height ∧
      (mAt ws l).height < s.h0 + s.s_z + 0.5 * s.dh := by
  simp only [lagOk, Bool.and_eq_true, decide_eq_true_eq] at h
  tauto

/-- Split the pairwise test into its four component predicates. -/
theorem pairOkB_split {ws : List Meas} {s : LagSpec} {k l : ℕ}
    (h : pairOkB ws s k l = true) :
    spatialOk ws s k l = true ∧
      |(mAt ws l).height - (mAt ws k).height - s.s_z| < s.ds_z / 2 ∧
      l ≠ k ∧ |(mAt ws l).t - (mAt ws k).t - s.tau| < s.dtau / 2 := by
  simp only [pairOkB, Bool.and_eq_true, decide_eq_true_eq] at h
  tauto

/-- Split the floors test. -/
theorem floorsOkB_split {ws : List Meas} {k l : ℕ} (h : floorsOkB ws k l = true) :
    ltSqrtB 2 (distSq ws k l) = true ∧ (2 : ℚ) < |(mAt ws l).t - (mAt ws k).t| := by
  simp only [floorsOkB, Bool.and_eq_true, decide_eq_true_eq] at h
  exact h

/-! ## Helper lemmas: deduplication invariant of the accepting loop -/

/-- Loop invariant: the accepted records are pairwise distinct as unordered
index pairs, and both orders of every accepted pair are keyed in the
dictionary. -/
def goodState (st : PairState) : Prop :=
  st.recs.Pairwise (fun r r' => (r.k, r.l) ≠ (r'.k, r'.l) ∧ (r.k, r.l) ≠ (r'.l, r'.k)) ∧
  ∀ r ∈ st.recs, (r.k, r.l) ∈ st.dict ∧ (r.l, r.k) ∈ st.dict

/-- One step of the accepting loop preserves the invariant: a new pair is
only recorded when its ordered key is absent, and both orders of every
recorded pair are keyed, so no unordered pair can be recorded twice. -/
theorem pairStep_good {ws : List Meas} {st : PairState} {c : ℕ × ℕ}
    (h : goodState st) : goodState (pairStep ws st c) := by
  obtain ⟨hpw, hdict⟩ := h
  by_cases h1 : c ∈ st.dict
  · rw [pairStep, if_pos h1]
    exact ⟨hpw, hdict⟩
  · by_cases h2 : floorsOkB ws c.1 c.2 = true
    · rw [pairStep, if_neg h1, if_pos h2]
      constructor
      · rw [List.pairwise_append]
        refine ⟨hpw, List.pairwise_singleton _ _, ?_⟩
        intro r hr b hb
        have hbr : b = mkRec ws c.1 c.2 := by simpa using hb
        subst hbr
        have hrd := hdict r hr
        constructor
        · intro hcon
          apply h1
          simp only [mkRec, Prod.mk.injEq] at hcon
          have hmem : (c.1, c.2) ∈ st.dict := by
            rw [← hcon.1, ← hcon.2]
            exact hrd.1
          simpa using hmem
        · intro hcon
          apply h1
          simp only [mkRec, Prod.mk.injEq] at hcon
          have hmem : (c.1, c.2) ∈ st.dict := by
            rw [← hcon.1, ← hcon.2]
            exact hrd.2
          simpa using hmem
      · intro r hr
        rcases List.mem_append.1 hr with h3 | h3
        · have hrd := hdict r h3
          exact ⟨List.mem_cons_of_mem _ (List.mem_cons_of_mem _ hrd.1),
            List.mem_cons_of_mem _ (List.mem_cons_of_mem _ hrd.2)⟩
        · have hbr : r = mkRec ws c.1 c.2 := by simpa using h3
          subst hbr
          constructor
          · simp [mkRec]
          · simp [mkRec]
    · rw [pairStep, if_neg h1, if_neg h2]
      exact ⟨hpw, hdict⟩

/-- The accepting fold preserves the invariant. -/
theorem fold_good (ws : List Meas) (cands : List (ℕ × ℕ)) (st : PairState)
    (h : goodState st) : goodState (cands.foldl (pairStep ws) st) := by
  induction cands generalizing st with
  | nil => exact h
  | cons c cs ih => exact ih _ (pairStep_good h)

/-! ## Helper lemmas: the least-squares step -/

/-- The explicit adjugate inverse agrees with the Mathlib matrix inverse
(over the field ℚ, `Ring.inverse` of the determinant is its inverse). -/
theorem invMat_eq_inv (M : Matrix (Fin 6) (Fin 6) ℚ) : invMat M = M⁻¹ := by
  rw [Matrix.inv_def, Ring.inverse_eq_inv]
  rfl

/-- The least-squares objective `‖A x - m‖²` of the weighted system. -/
def lsObj (nr : ℕ) (A : ℕ → Fin 6 → ℚ) (mv : ℕ → ℚ) (x : Fin 6 → ℚ) : ℚ :=
  ∑ p ∈ Finset.range nr, ((∑ j : Fin 6, A p j * x j) - mv p) ^ 2

/-- The normal equations hold at `xhat = (AᵀA)⁻¹ Aᵀ m` when the Gram matrix
is nonsingular: the residual is orthogonal to every column of `A`. -/
theorem normal_eq (nr : ℕ) (A : ℕ → Fin 6 → ℚ) (mv : ℕ → ℚ)
    (hdet : (gramOf nr A).det ≠ 0) (j : Fin 6) :
    ∑ p ∈ Finset.range nr,
      A p j * ((∑ i : Fin 6, A p i * ((invMat (gramOf nr A)).mulVec (atv nr A mv)) i) - mv p)
      = 0 := by
  set G := gramOf nr A with hG
  set xh := (invMat G).mulVec (atv nr A mv) with hxh
  have hmv : G.mulVec xh = atv nr A mv := by
    rw [hxh, invMat_eq_inv, Matrix.mulVec_mulVec, Matrix.mul_nonsing_inv _ (isUnit_iff_ne_zero.2 hdet), Matrix.one_mulVec]
  have swap : ∑ p ∈ Finset.range nr, A p j * (∑ i : Fin 6, A p i * xh i)
      = ∑ i : Fin 6, G j i * xh i := by
    calc ∑ p ∈ Finset.range nr, A p j * (∑ i : Fin 6, A p i * xh i)
        = ∑ p ∈ Finset.range nr, ∑ i : Fin 6, A p j * A p i * xh i := by
          refine Finset.sum_congr rfl fun p _ => ?_
          rw [Finset.mul_sum]
          refine Finset.sum_congr rfl fun i _ => by ring
      _ = ∑ i : Fin 6, ∑ p ∈ Finset.range nr, A p j * A p i * xh i := Finset.sum_comm
      _ = ∑ i : Fin 6, G j i * xh i := by
          refine Finset.sum_congr rfl fun i _ => ?_
          rw [hG]
          show (∑ p ∈ Finset.range nr, A p j * A p i * xh i)
              = (∑ p ∈ Finset.range nr, A p j * A p i) * xh i
          rw [Finset.sum_mul]
  have hGx : ∑ i : Fin 6, G j i * xh i = atv nr A mv j := by
    have := congrFun hmv j
    simpa [Matrix.mulVec, Matrix.dotProduct] using this
  calc ∑ p ∈ Finset.range nr,
        A p j * ((∑ i : Fin 6, A p i * xh i) - mv p)
      = (∑ p ∈ Finset.range nr, A p j * (∑ i : Fin 6, A p i * xh i))
        - ∑ p ∈ Finset.range nr, A p j * mv p := by
        rw [← Finset.sum_sub_distrib]
        refine Finset.sum_congr rfl fun p _ => by ring
    _ = (∑ i : Fin 6, G j i * xh i) - atv nr A mv j := by rw [swap, atv]
    _ = 0 := by rw [hGx]; ring

/-- The normal-equations solution minimizes the least-squares objective. -/
theorem lsObj_min (nr : ℕ) (A : ℕ → Fin 6 → ℚ) (mv : ℕ → ℚ)
    (hdet : (gramOf nr A).det ≠ 0) (y : Fin 6 → ℚ) :
    lsObj nr A mv ((invMat (gramOf nr A)).mulVec (atv nr A mv)) ≤ lsObj nr A mv y := by
  set xh := (invMat (gramOf nr A)).mulVec (atv nr A mv) with hxh
  have expand : lsObj nr A mv y = lsObj nr A mv xh
      + 2 * (∑ p ∈ Finset.range nr,
          ((∑ i : Fin 6, A p i * xh i) - mv p) * (∑ j : Fin 6, A p j * (y j - xh j)))
      + ∑ p ∈ Finset.range nr, (∑ j : Fin 6, A p j * (y j - xh j)) ^ 2 := by
    unfold lsObj
    rw [Finset.mul_sum, ← Finset.sum_add_distrib, ← Finset.sum_add_distrib]
    refine Finset.sum_congr rfl fun p _ => ?_
    have hy : (∑ j : Fin 6, A p j * y j)
        = (∑ j : Fin 6, A p j * xh j) + (∑ j : Fin 6, A p j * (y j - xh j)) := by
      rw [← Finset.sum_add_distrib]
      refine Finset.sum_congr rfl fun j _ => by ring
    rw [hy]
    ring
  have cross : ∑ p ∈ Finset.range nr,
      ((∑ i : Fin 6, A p i * xh i) - mv p) * (∑ j : Fin 6, A p j * (y j - xh j)) = 0 := by
    have step1 : ∀ p, ((∑ i : Fin 6, A p i * xh i) - mv p) * (∑ j : Fin 6, A p j * (y j - xh j))
        = ∑ j : Fin 6, (A p j * ((∑ i : Fin 6, A p i * xh i) - mv p)) * (y j - xh j) := by
      intro p
      rw [Finset.mul_sum]
      refine Finset.sum_congr rfl fun j _ => by ring
    simp_rw [step1]
    rw [Finset.sum_comm]
    have step2 : ∀ j : Fin 6, ∑ p ∈ Finset.range nr,
        (A p j * ((∑ i : Fin 6, A p i * xh i) - mv p)) * (y j - xh j)
        = (∑ p ∈ Finset.range nr, A p j * ((∑ i : Fin 6, A p i * xh i) - mv p)) * (y j - xh j) :=
      fun j => (Finset.sum_mul _ _ _).symm
    simp_rw [step2, hxh, normal_eq nr A mv hdet]
    simp
  have sqnn : 0 ≤ ∑ p ∈ Finset.range nr, (∑ j : Fin 6, A p j * (y j - xh j)) ^ 2 :=
    Finset.sum_nonneg fun p _ => sq_nonneg _
  rw [expand, cross]
  linarith

/-- A Gram matrix of an empty design matrix is the zero matrix. -/
theorem gramOf_zero_rows (M : ℕ → Fin 6 → ℚ) : gramOf 0 M = 0 := by
  ext i j
  simp [gramOf]

/-- With zero accepted pairs the inversion fails and yields the all-NaN
branch (`inv` of the zero normal matrix raises in the source). -/
theorem solveLS_zero (A : ℕ → Fin 6 → ℚ) (mv : ℕ → ℚ)
    (Ao : ℕ → Fin 6 → ℚ) (mov : ℕ → ℚ) : solveLS 0 A mv Ao mov = none := by
  have h : (gramOf 0 A).det = 0 ∨ (gramOf 0 Ao).det = 0 := by
    left
    rw [gramOf_zero_rows, Matrix.det_zero]
    exact ⟨0⟩
  unfold solveLS
  rw [if_pos h]

/-- The adjugate inverse of the identity matrix is the identity. -/
theorem invMat_one : invMat (1 : Matrix (Fin 6) (Fin 6) ℚ) = 1 := by
  rw [invMat_eq_inv, inv_one]

/-- Evaluation of the inversion step when both Gram matrices are the
identity: the estimate is `Aᵀ m` and the squared error scale uses the
residual of that estimate. -/
theorem solveLS_of_gram_one (nr : ℕ) (A : ℕ → Fin 6 → ℚ) (mv : ℕ → ℚ)
    (Ao : ℕ → Fin 6 → ℚ) (mov : ℕ → ℚ)
    (hA : gramOf nr A = 1) (hAo : gramOf nr Ao = 1) :
    solveLS nr A mv Ao mov = some (atv nr A mv,
      fun j => 9 * ((∑ p ∈ Finset.range nr,
        (mov p - ∑ i : Fin 6, Ao p i * atv nr A mv i) ^ 2) / nr) *
        (1 : Matrix (Fin 6) (Fin 6) ℚ) j j) := by
  unfold solveLS
  rw [hA, hAo, invMat_one, Matrix.det_one]
  rw [if_neg (by norm_num)]
  rw [Matrix.one_mulVec]

/-! ## The mirrored Lag Specification and the pointwise pair predicate -/

/-- The full acceptance predicate of a pair inside one window, with the
window-time conditions removed: bounds, reference and lagged height bands,
the spatial, vertical and temporal lag windows, and the 2 km / 2 s floors. -/
def fullPairOk (ws : List Meas) (s : LagSpec) (k l : ℕ) : Bool :=
  decide (k < ws.length) && decide (l < ws.length) &&
  decide (s.h0 - s.dh * 0.5 < (mAt ws k).height) &&
  decide ((mAt ws k).height < s.h0 + s.dh * 0.5) &&
  decide (s.h0 + s.s_z - 0.5 * s.dh < (mAt ws l).height) &&
  decide ((mAt ws l).height < s.h0 + s.s_z + 0.5 * s.dh) &&
  pairOkB ws s k l && floorsOkB ws k l

/-- The amended mirror of a Lag Specification: negate `tau`, `s_x`, `s_y`
and `s_z`, keep the unsigned `s_h`, and shift the reference height to
`h0 + s_z` so that the lagged measurement becomes the reference. -/
def mirrorSpec (s : LagSpec) : LagSpec :=
  ⟨s.h0 + s.s_z, s.dh, s.ds_z, -s.s_z, -s.s_x, s.ds_x, -s.s_y, s.ds_y,
    s.s_h, s.ds_h, -s.tau, s.dtau, s.horizontal_dist, s.hour_of_day, s.dhour_of_day⟩

/-- Modelled from the claim C9: the mirrored Lag Specification obtained by
negating the requested `tau`, `s_x`, `s_y`, `s_z` and `s_h`. -/
def claimMirror (s : LagSpec) : LagSpec :=
  ⟨s.h0, s.dh, s.ds_z, -s.s_z, -s.s_x, s.ds_x, -s.s_y, s.ds_y,
    -s.s_h, s.ds_h, -s.tau, s.dtau, s.horizontal_dist, s.hour_of_day, s.dhour_of_day⟩

/-- Modelled from the claim C6: the wrap-aware modulo-24 distance between
two hour-of-day values. -/
def wrapDist (a b : ℚ) : ℚ := min (qmod (a - b) 24) (qmod (b - a) 24)

/-- The spatial window is symmetric under swapping the pair and negating
`s_x` and `s_y` (the horizontal-distance form needs no negation of `s_h`
because the distance itself is symmetric). -/
theorem spatialOk_mirror {ws : List Meas} {s : LagSpec} {k l : ℕ}
    (h : spatialOk ws s k l = true) : spatialOk ws (mirrorSpec s) l k = true := by
  unfold spatialOk at h ⊢
  cases hb : s.horizontal_dist with
  | true =>
    rw [hb] at h
    simp only [mirrorSpec, hb, if_true]
    simp only [if_true] at h
    rw [distSq_comm]
    exact h
  | false =>
    rw [hb] at h
    simp only [mirrorSpec, hb, Bool.false_eq_true, if_false]
    simp only [Bool.false_eq_true, if_false, Bool.and_eq_true, decide_eq_true_eq] at h ⊢
    obtain ⟨h1, h2⟩ := h
    constructor
    · have e1 : latdeg2km * ((mAt ws k).lat - (mAt ws l).lat) - -s.s_y
          = -(latdeg2km * ((mAt ws l).lat - (mAt ws k).lat) - s.s_y) := by ring
      rw [e1, abs_neg]
      exact h1
    · have e2 : londeg2km * ((mAt ws k).lon - (mAt ws l).lon) - -s.s_x
          = -(londeg2km * ((mAt ws l).lon - (mAt ws k).lon) - s.s_x) := by ring
      rw [e2, abs_neg]
      exact h2

/-- From the acceptance facts of `(k, l)` under `s`, the reversed pair
`(l, k)` satisfies the full pointwise acceptance predicate of the mirrored
specification. -/
theorem mirror_fullPairOk {ws : List Meas} {s : LagSpec} {k l : ℕ}
    (hkL : k < ws.length) (hlL : l < ws.length)
    (hk1 : s.h0 - s.dh * 0.5 < (mAt ws k).height)
    (hk2 : (mAt ws k).height < s.h0 + s.dh * 0.5)
    (hl1 : s.h0 + s.s_z - 0.5 * s.dh < (mAt ws l).height)
    (hl2 : (mAt ws l).height < s.h0 + s.s_z + 0.5 * s.dh)
    (hsp : spatialOk ws s k l = true)
    (hv : |(mAt ws l).height - (mAt ws k).height - s.s_z| < s.ds_z / 2)
    (hne : l ≠ k)
    (htt : |(mAt ws l).t - (mAt ws k).t - s.tau| < s.dtau / 2)
    (hfl : floorsOkB ws k l = true) :
    fullPairOk ws (mirrorSpec s) l k = true := by
  obtain ⟨hd, ht2⟩ := floorsOkB_split hfl
  unfold fullPairOk pairOkB floorsOkB
  simp only [Bool.and_eq_true, decide_eq_true_eq, and_assoc]
  refine ⟨hlL, hkL, ?_, ?_, ?_, ?_, spatialOk_mirror hsp, ?_, hne.symm, ?_, ?_, ?_⟩
  · show (mirrorSpec s).h0 - (mirrorSpec s).dh * 0.5 < (mAt ws l).height
    simp only [mirrorSpec]
    linarith
  · show (mAt ws l).height < (mirrorSpec s).h0 + (mirrorSpec s).dh * 0.5
    simp only [mirrorSpec]
    linarith
  · show (mirrorSpec s).h0 + (mirrorSpec s).s_z - 0.5 * (mirrorSpec s).dh < (mAt ws k).height
    simp only [mirrorSpec]
    linarith
  · show (mAt ws k).height < (mirrorSpec s).h0 + (mirrorSpec s).s_z + 0.5 * (mirrorSpec s).dh
    simp only [mirrorSpec]
    linarith
  · show |(mAt ws k).height - (mAt ws l).height - (mirrorSpec s).s_z| < (mirrorSpec s).ds_z / 2
    simp only [mirrorSpec]
    have e : (mAt ws k).height - (mAt ws l).height - -s.s_z
        = -((mAt ws l).height - (mAt ws k).height - s.s_z) := by ring
    rw [e, abs_neg]
    exact hv
  · show |(mAt ws k).t - (mAt ws l).t - (mirrorSpec s).tau| < (mirrorSpec s).dtau / 2
    simp only [mirrorSpec]
    have e : (mAt ws k).t - (mAt ws l).t - -s.tau
        = -((mAt ws l).t - (mAt ws k).t - s.tau) := by ring
    rw [e, abs_neg]
    exact htt
  · show ltSqrtB 2 (distSq ws l k) = true
    rw [distSq_comm]
    exact hd
  · show (2 : ℚ) < |(mAt ws k).t - (mAt ws l).t|
    rw [abs_sub_comm]
    exact ht2

/-! ## Concrete measurement tables and specifications

`tblW`/`specW` is a 14-measurement table designed so that the pair search
accepts exactly six pairs whose Bragg-product rows are the six standard
basis vectors; every histogram bin holds at most one pair, so after the
count floor every diurnal weight is 1 and both Gram matrices are the
identity.  The other tables exercise the degenerate branches. -/

/-- Witness table: one leading and one trailing out-of-band measurement
pin the time span; six pairs, 3600 s apart, 10 s inside each pair,
11.13 km apart horizontally, all at height 90. -/
def tblW : List Meas :=
  [⟨0, 0, 0, 80, 0, 0, 0, 1⟩,
   ⟨3600, 69, 19, 90, 1, 0, 0, 1⟩, ⟨3610, 691/10, 19, 90, 1, 0, 0, 1⟩,
   ⟨7200, 69, 19, 90, 0, 1, 0, 1⟩, ⟨7210, 691/10, 19, 90, 0, 1, 0, 1⟩,
   ⟨10800, 69, 19, 90, 0, 0, 1, 1⟩, ⟨10810, 691/10, 19, 90, 0, 0, 1, 1⟩,
   ⟨14400, 69, 19, 90, 1, 0, 0, 1⟩, ⟨14410, 691/10, 19, 90, 0, 1, 0, 1⟩,
   ⟨18000, 69, 19, 90, 1, 0, 0, 1⟩, ⟨18010, 691/10, 19, 90, 0, 0, 1, 1⟩,
   ⟨21600, 69, 19, 90, 0, 1, 0, 1⟩, ⟨21610, 691/10, 19, 90, 0, 0, 1, 1⟩,
   ⟨21700, 0, 0, 80, 0, 0, 0, 1⟩]

/-- Witness specification: height band (89, 91), `s_z = 0`, horizontal
distance window `11 ± 1` km, `tau = 0 ± 1500` s, no hour restriction. -/
def specW : LagSpec := ⟨90, 2, 1, 0, 0, 1, 0, 0, 11, 2, 0, 3000, true, 0, 48⟩

/-- The six records accepted on `tblW`/`specW`. -/
def recsW : List PairRec :=
  [⟨1, 2, 3600, 10, 0, 0, 111321/10000, 12392365041/100000000⟩,
   ⟨3, 4, 7200, 10, 0, 0, 111321/10000, 12392365041/100000000⟩,
   ⟨5, 6, 10800, 10, 0, 0, 111321/10000, 12392365041/100000000⟩,
   ⟨7, 8, 14400, 10, 0, 0, 111321/10000, 12392365041/100000000⟩,
   ⟨9, 10, 18000, 10, 0, 0, 111321/10000, 12392365041/100000000⟩,
   ⟨11, 12, 21600, 10, 0, 0, 111321/10000, 12392365041/100000000⟩]

/-- The first accepted record of `tblW`/`specW`. -/
def recW0 : PairRec := ⟨1, 2, 3600, 10, 0, 0, 111321/10000, 12392365041/100000000⟩

/-- Table for the C4 evaluation: minimum time 1800 s (hour 0.5), two pairs
with reference hours 2.0 and 2.01 (same histogram bin) and one with
reference hour 4, separated geographically so only the three intended
pairs are accepted. -/
def tbl4 : List Meas :=
  [⟨1800, 0, 0, 80, 0, 0, 0, 1⟩,
   ⟨7200, 69, 19, 90, 1, 0, 0, 1⟩, ⟨7210, 691/10, 19, 90, 1, 0, 0, 1⟩,
   ⟨7236, 40, 19, 90, 0, 1, 0, 1⟩, ⟨7246, 401/10, 19, 90, 0, 1, 0, 1⟩,
   ⟨14400, 10, 19, 90, 0, 0, 1, 1⟩, ⟨14410, 101/10, 19, 90, 0, 0, 1, 1⟩,
   ⟨20000, 0, 0, 80, 0, 0, 0, 1⟩]

/-- Specification for the C4 evaluation (`dtau = 300`). -/
def spec4 : LagSpec := ⟨90, 2, 1, 0, 0, 1, 0, 0, 11, 2, 0, 300, true, 0, 48⟩

/-- Table for the C5 evaluation: two measurements 10 s apart that satisfy
every pointwise acceptance predicate. -/
def tbl5 : List Meas :=
  [⟨0, 69, 19, 90, 1, 0, 0, 1⟩, ⟨10, 691/10, 19, 90, 1, 0, 0, 1⟩]

/-- Specification for the C5 evaluation: the 10 s time span is smaller
than `dtau = 300`, so the window loop runs zero times. -/
def spec5 : LagSpec := ⟨90, 2, 1, 0, 0, 1, 0, 0, 11, 2, 0, 300, true, 0, 48⟩

/-- Table for the C1 evaluation: a nonempty working set in which no
measurement lies in the height band, so zero pairs are found. -/
def tblC1 : List Meas :=
  [⟨0, 69, 19, 50, 1, 0, 0, 1⟩, ⟨5000, 691/10, 19, 50, 1, 0, 0, 1⟩]

/-- Specification for the C1 evaluation. -/
def specC1 : LagSpec := ⟨90, 2, 1, 0, 0, 1, 0, 0, 11, 2, 0, 300, true, 0, 48⟩

/-- The measurement of the C6 counterexample: time 720 s, hour of day 0.2. -/
def mC6 : Meas := ⟨720, 69, 19, 90, 1, 0, 0, 1⟩

/-- Table of the C6 counterexample. -/
def tblC6 : List Meas := [mC6]

/-- Specification of the C6 counterexample: `hour_of_day = 23.5`,
`dhour_of_day = 2`, so the window is 23.5 ± 1 hour. -/
def specC6 : LagSpec := ⟨90, 2, 1, 0, 0, 1, 0, 0, 11, 2, 0, 300, true, 47/2, 2⟩

/-- Table of the C9 counterexample: one accepted pair. -/
def tbl9 : List Meas :=
  [⟨0, 0, 0, 80, 0, 0, 0, 1⟩,
   ⟨3600, 69, 19, 90, 1, 0, 0, 1⟩, ⟨3610, 691/10, 19, 90, 1, 0, 0, 1⟩,
   ⟨7300, 0, 0, 80, 0, 0, 0, 1⟩]

/-- Specification of the C9 counterexample: horizontal-distance window
`11 ± 1` km; its claim-mirror asks for `-11 ± 1` km, which no nonnegative
distance can satisfy. -/
def spec9 : LagSpec := ⟨90, 2, 1, 0, 0, 1, 0, 0, 11, 2, 0, 3000, true, 0, 48⟩

/-! ## Claim theorems -/

unseal Rat.add Rat.sub Rat.mul Rat.inv Rat.ofScientific in
set_option maxRecDepth 400000 in
/-- C1 (code bug): the claim asserts that an empty Measurement Table or a
Lag Specification selecting zero measurements yields an all-NaN
`InversionResult` without raising; in the source, `n.max(t)` at line 187
raises `ValueError` on a zero-size array (modelled `Except.error`), for
every specification.  Only the zero-pairs case (here: a nonempty working
set none of which lies in the height band) degrades to the all-NaN result
as claimed. -/
theorem C1_degenerate :
    (∀ (twopi : ℚ) (s : LagSpec), cfi twopi [] s = Except.error ()) ∧
    cfi 1 tblC1 specC1 = Except.ok ⟨none, none, none, none, none, []⟩ := by
  constructor
  · intro twopi s
    rfl
  · have hrecs : recsOf tblC1 specC1 = [] := by decide
    have hnum : numPairs tblC1 specC1 = 0 := by rw [numPairs, hrecs]; rfl
    have hws : (workingSet tblC1 specC1).isEmpty = false := by decide
    have hsol : solOf 1 tblC1 specC1 = none := by
      unfold solOf
      rw [hnum]
      exact solveLS_zero _ _ _ _
    unfold cfi
    rw [hws]
    simp [hsol, hrecs, meanQ]

unseal Rat.add Rat.sub Rat.mul Rat.inv Rat.ofScientific in
set_option maxRecDepth 1000000 in
/-- C4 (code bug): the diurnal weight of the first accepted pair of `tbl4`
is `1 / countf(mod((t[k] - t0) / 3600, 24)) = 11/14` (the code, hours since
the start of the data), while the weight at the hour-of-day coordinate of
the histogram, `1 / countf(mod(t[k] / 3600, 24)) = 1 / countf(2) = 33/34`,
differs: the code evaluates the density model off its own histogram
coordinate whenever `min(t)` is not a multiple of 24 h. -/
theorem C4_weight_mismatch :
    (weightsOf tbl4 spec4).getD 0 0 = 11 / 14 ∧
    hodOf ((recsOf tbl4 spec4).getD 0 default).tod = 2 ∧
    1 / countfOf tbl4 spec4 (hodOf ((recsOf tbl4 spec4).getD 0 default).tod) = 33 / 34 ∧
    (11 / 14 : ℚ) ≠ 33 / 34 :=
  ⟨by decide, by decide, by decide, by decide⟩

unseal Rat.add Rat.sub Rat.mul Rat.inv Rat.ofScientific in
set_option maxRecDepth 400000 in
/-- C5 (code bug): on `tbl5` the pair `(0, 1)` satisfies every pointwise
acceptance predicate (height bands, spatial, vertical and temporal windows,
and the 2 km / 2 s floors), but the time span (10 s) is smaller than
`dtau`, so `n_times = int(10 / 300) = 0` windows are created and the pair
list is empty: the window blocking is not complete. -/
theorem C5_window_gap :
    fullPairOk (workingSet tbl5 spec5) spec5 0 1 = true ∧
    nTimes (workingSet tbl5 spec5) spec5 = 0 ∧
    pairsOf tbl5 spec5 = [] :=
  ⟨by decide, by decide, by decide⟩

unseal Rat.add Rat.sub Rat.mul Rat.inv Rat.ofScientific in
set_option maxRecDepth 400000 in
/-- C6 counterexample: the measurement at hour-of-day 0.2 is within the
wrap-aware modulo-24 window `23.5 ± 1` claimed by the specification
(distance 0.7), yet the source drops it, because line 163 compares plain
absolute differences of hour values with no wrap at midnight. -/
theorem C6_wrap_counterexample :
    mC6 ∈ tblC6 ∧
    wrapDist (hodOf mC6.t) specC6.hour_of_day ≤ specC6.dhour_of_day / 2 ∧
    mC6 ∉ workingSet tblC6 specC6 :=
  ⟨by decide, by decide, by decide⟩

unseal Rat.add Rat.sub Rat.mul Rat.inv Rat.ofScientific in
set_option maxRecDepth 400000 in
/-- C6 (amended): the initial time-of-day restriction retains exactly the
measurements with `|mod(t/3600, 24) - hour_of_day| <= dhour_of_day / 2`
under the plain (non-wrapping) comparison, and only those form the working
set for the rest of the call. -/
theorem C6_plain_hour_filter (mt : List Meas) (s : LagSpec) (x : Meas) :
    x ∈ workingSet mt s ↔ x ∈ mt ∧ |hodOf x.t - s.hour_of_day| ≤ s.dhour_of_day / 2 := by
  simp [workingSet, List.mem_filter]

unseal Rat.add Rat.sub Rat.mul Rat.inv Rat.ofScientific in
set_option maxRecDepth 400000 in
/-- C9 counterexample: the pair `(1, 2)` is accepted on `tbl9` under
`spec9` (horizontal window `11 ± 1` km), but under the claim-mirrored
specification (which negates `s_h` to `-11`) the reversed pair is not
accepted: a nonnegative distance can never lie in `-11 ± 1`. -/
theorem C9_mirror_counterexample :
    (1, 2) ∈ pairsOf tbl9 spec9 ∧ (2, 1) ∉ pairsOf tbl9 (claimMirror spec9) :=
  ⟨by decide, by decide⟩

/-- C7: for every invocation, no unordered pair of indices appears twice in
the accepted pair list: distinct entries are distinct even after swapping
one of them. -/
theorem C7_dedup (mt : List Meas) (s : LagSpec) :
    (pairsOf mt s).Pairwise fun p q => p ≠ q ∧ p ≠ (q.2, q.1) := by
  have hg : goodState ((candidates (workingSet mt s) s).foldl
      (pairStep (workingSet mt s)) ⟨[], []⟩) :=
    fold_good _ _ _ ⟨List.Pairwise.nil, by simp⟩
  rw [pairsOf, List.pairwise_map]
  exact hg.1

/-- C8: every accepted pair has horizontal separation strictly greater
than 2 km and absolute time separation strictly greater than 2 s, which in
particular excludes pairing a measurement with itself. -/
theorem C8_floors (mt : List Meas) (s : LagSpec) (r : PairRec)
    (hr : r ∈ recsOf mt s) :
    (2 : ℝ) < Real.sqrt ((r.shSq : ℚ) : ℝ) ∧ (2 : ℚ) < |r.tauR| ∧ r.k ≠ r.l := by
  obtain ⟨k, l, hc, he, hf⟩ := recsOf_mem hr
  obtain ⟨hd, ht⟩ := floorsOkB_split hf
  obtain ⟨i, hi, h0m, htm⟩ := mem_candidates hc
  obtain ⟨hlL, hlag, hpok⟩ := mem_idxt htm
  have hne := (pairOkB_split hpok).2.2.1
  subst he
  refine ⟨?_, ?_, ?_⟩
  · have h2 : ((2 : ℚ) : ℝ) < Real.sqrt ((distSq (workingSet mt s) k l : ℚ) : ℝ) :=
      ltSqrtB_iff_real.1 hd
    show (2 : ℝ) < Real.sqrt ((distSq (workingSet mt s) k l : ℚ) : ℝ)
    exact_mod_cast h2
  · exact ht
  · show k ≠ l
    exact fun hkl => hne hkl.symm

unseal Rat.add Rat.sub Rat.mul Rat.inv Rat.ofScientific in
set_option maxRecDepth 400000 in
/-- C8 witness: the first accepted pair of the witness table. -/
theorem C8_floors_witness :
    recW0 ∈ recsOf tblW specW ∧
    ((2 : ℝ) < Real.sqrt ((recW0.shSq : ℚ) : ℝ) ∧
      (2 : ℚ) < |recW0.tauR| ∧ recW0.k ≠ recW0.l) :=
  ⟨by decide, C8_floors tblW specW recW0 (by decide)⟩

/-- C10: the realized per-pair quantities recorded with every accepted pair
satisfy the requested soft windows: temporal lag within `tau ± dtau/2`,
vertical offset within `s_z ± ds_z/2`, and, depending on the selector,
horizontal distance within `s_h ± ds_h/2` or east/north offsets within
`s_x ± ds_x/2` and `s_y ± ds_y/2`. -/
theorem C10_soft_windows (mt : List Meas) (s : LagSpec) (r : PairRec)
    (hr : r ∈ recsOf mt s) :
    |r.tauR - s.tau| < s.dtau / 2 ∧ |r.szR - s.s_z| < s.ds_z / 2 ∧
    (if s.horizontal_dist then
      |Real.sqrt ((r.shSq : ℚ) : ℝ) - (s.s_h : ℝ)| < (s.ds_h : ℝ) / 2
     else |r.sxR - s.s_x| < s.ds_x / 2 ∧ |r.syR - s.s_y| < s.ds_y / 2) := by
  obtain ⟨k, l, hc, he, hf⟩ := recsOf_mem hr
  obtain ⟨i, hi, h0m, htm⟩ := mem_candidates hc
  obtain ⟨hlL, hlag, hpok⟩ := mem_idxt htm
  obtain ⟨hsp, hv, hne, htt⟩ := pairOkB_split hpok
  subst he
  refine ⟨htt, hv, ?_⟩
  unfold spatialOk at hsp
  cases hb : s.horizontal_dist with
  | true =>
    rw [hb] at hsp
    simp only [if_true] at hsp
    simp only [hb, if_true]
    have h2 := absSqrtLtB_iff_real.1 hsp
    show |Real.sqrt ((distSq (workingSet mt s) k l : ℚ) : ℝ) - (s.s_h : ℝ)| < (s.ds_h : ℝ) / 2
    have hc2 : ((s.ds_h / 2 : ℚ) : ℝ) = (s.ds_h : ℝ) / 2 := by push_cast; ring
    rw [← hc2]
    exact h2
  | false =>
    rw [hb] at hsp
    simp only [Bool.false_eq_true, if_false, Bool.and_eq_true, decide_eq_true_eq] at hsp
    simp only [hb, Bool.false_eq_true, if_false]
    exact ⟨hsp.2, hsp.1⟩

unseal Rat.add Rat.sub Rat.mul Rat.inv Rat.ofScientific in
set_option maxRecDepth 400000 in
/-- C10 witness: the first accepted pair of the witness table. -/
theorem C10_soft_windows_witness :
    recW0 ∈ recsOf tblW specW ∧
    (|recW0.tauR - specW.tau| < specW.dtau / 2 ∧
      |recW0.szR - specW.s_z| < specW.ds_z / 2 ∧
      (if specW.horizontal_dist then
        |Real.sqrt ((recW0.shSq : ℚ) : ℝ) - (specW.s_h : ℝ)| < (specW.ds_h : ℝ) / 2
       else |recW0.sxR - specW.s_x| < specW.ds_x / 2 ∧
         |recW0.syR - specW.s_y| < specW.ds_y / 2)) :=
  ⟨by decide, C10_soft_windows tblW specW recW0 (by decide)⟩

/-- C9 (amended): for any pair `(k, l)` accepted under `s`, the reversed
pair `(l, k)` satisfies the full pointwise acceptance predicate of the
mirrored specification in which `tau`, `s_x`, `s_y`, `s_z` are negated,
the unsigned `s_h` is kept, and the reference height is shifted to
`h0 + s_z`.  (As stated in the claim, with `s_h` negated, the mirrored
acceptance fails; see the counterexample.) -/
theorem C9_mirror_predicates (mt : List Meas) (s : LagSpec) (k l : ℕ)
    (h : (k, l) ∈ pairsOf mt s) :
    fullPairOk (workingSet mt s) (mirrorSpec s) l k = true := by
  rw [pairsOf, List.mem_map] at h
  obtain ⟨r, hr, hkl⟩ := h
  obtain ⟨k', l', hc, he, hf⟩ := recsOf_mem hr
  subst he
  have hk : k' = k := by simpa [mkRec] using congrArg Prod.fst hkl
  have hl : l' = l := by simpa [mkRec] using congrArg Prod.snd hkl
  subst hk
  subst hl
  obtain ⟨i, hi, h0m, htm⟩ := mem_candidates hc
  obtain ⟨hkL, href⟩ := mem_idx0 h0m
  obtain ⟨hlL, hlag, hpok⟩ := mem_idxt htm
  obtain ⟨hsp, hv, hne, htt⟩ := pairOkB_split hpok
  obtain ⟨hh1, hh2⟩ := refOk_height href
  obtain ⟨hg1, hg2⟩ := lagOk_height hlag
  exact mirror_fullPairOk hkL hlL hh1 hh2 hg1 hg2 hsp hv hne htt hf

unseal Rat.add Rat.sub Rat.mul Rat.inv Rat.ofScientific in
set_option maxRecDepth 400000 in
/-- C9 witness: the first accepted pair of the witness table, reversed
under the amended mirror. -/
theorem C9_mirror_predicates_witness :
    (1, 2) ∈ pairsOf tblW specW ∧
    fullPairOk (workingSet tblW specW) (mirrorSpec specW) 2 1 = true :=
  ⟨by decide, C9_mirror_predicates tblW specW 1 2 (by decide)⟩

/-- C2: for every accepted pair, row `p` of the unweighted design matrix
is the vector of Bragg products in the order uu, vv, ww, uv, uw, vw, the
unweighted observation is `(2 pi)² dop(k) dop(l)`, and the weighted row and
observation are exactly these values scaled by the diurnal weight of the
pair. -/
theorem C2_design_rows (twopi : ℚ) (mt : List Meas) (s : LagSpec) (p : ℕ)
    (_hp : p < numPairs mt s) :
    AoEnt mt s p =
      ![(mAt (workingSet mt s) ((recsOf mt s).getD p default).k).bu *
          (mAt (workingSet mt s) ((recsOf mt s).getD p default).l).bu,
        (mAt (workingSet mt s) ((recsOf mt s).getD p default).k).bv *
          (mAt (workingSet mt s) ((recsOf mt s).getD p default).l).bv,
        (mAt (workingSet mt s) ((recsOf mt s).getD p default).k).bw *
          (mAt (workingSet mt s) ((recsOf mt s).getD p default).l).bw,
        (mAt (workingSet mt s) ((recsOf mt s).getD p default).k).bu *
            (mAt (workingSet mt s) ((recsOf mt s).getD p default).l).bv +
          (mAt (workingSet mt s) ((recsOf mt s).getD p default).k).bv *
            (mAt (workingSet mt s) ((recsOf mt s).getD p default).l).bu,
        (mAt (workingSet mt s) ((recsOf mt s).getD p default).k).bu *
            (mAt (workingSet mt s) ((recsOf mt s).getD p default).l).bw +
          (mAt (workingSet mt s) ((recsOf mt s).getD p default).k).bw *
            (mAt (workingSet mt s) ((recsOf mt s).getD p default).l).bu,
        (mAt (workingSet mt s) ((recsOf mt s).getD p default).k).bv *
            (mAt (workingSet mt s) ((recsOf mt s).getD p default).l).bw +
          (mAt (workingSet mt s) ((recsOf mt s).getD p default).k).bw *
            (mAt (workingSet mt s) ((recsOf mt s).getD p default).l).bv] ∧
    moEnt twopi mt s p =
      twopi ^ 2 * (mAt (workingSet mt s) ((recsOf mt s).getD p default).k).dop *
        (mAt (workingSet mt s) ((recsOf mt s).getD p default).l).dop ∧
    (AEnt mt s p = fun j => wAt mt s p * AoEnt mt s p j) ∧
    mEnt twopi mt s p = wAt mt s p * moEnt twopi mt s p :=
  ⟨rfl, rfl, rfl, rfl⟩

unseal Rat.add Rat.sub Rat.mul Rat.inv Rat.ofScientific in
set_option maxRecDepth 400000 in
/-- C2 witness: the first accepted pair of the witness table. -/
theorem C2_design_rows_witness :
    0 < numPairs tblW specW ∧
    (AoEnt tblW specW 0 =
      ![(mAt (workingSet tblW specW) ((recsOf tblW specW).getD 0 default).k).bu *
          (mAt (workingSet tblW specW) ((recsOf tblW specW).getD 0 default).l).bu,
        (mAt (workingSet tblW specW) ((recsOf tblW specW).getD 0 default).k).bv *
          (mAt (workingSet tblW specW) ((recsOf tblW specW).getD 0 default).l).bv,
        (mAt (workingSet tblW specW) ((recsOf tblW specW).getD 0 default).k).bw *
          (mAt (workingSet tblW specW) ((recsOf tblW specW).getD 0 default).l).bw,
        (mAt (workingSet tblW specW) ((recsOf tblW specW).getD 0 default).k).bu *
            (mAt (workingSet tblW specW) ((recsOf tblW specW).getD 0 default).l).bv +
          (mAt (workingSet tblW specW) ((recsOf tblW specW).getD 0 default).k).bv *
            (mAt (workingSet tblW specW) ((recsOf tblW specW).getD 0 default).l).bu,
        (mAt (workingSet tblW specW) ((recsOf tblW specW).getD 0 default).k).bu *
            (mAt (workingSet tblW specW) ((recsOf tblW specW).getD 0 default).l).bw +
          (mAt (workingSet tblW specW) ((recsOf tblW specW).getD 0 default).k).bw *
            (mAt (workingSet tblW specW) ((recsOf tblW specW).getD 0 default).l).bu,
        (mAt (workingSet tblW specW) ((recsOf tblW specW).getD 0 default).k).bv *
            (mAt (workingSet tblW specW) ((recsOf tblW specW).getD 0 default).l).bw +
          (mAt (workingSet tblW specW) ((recsOf tblW specW).getD 0 default).k).bw *
            (mAt (workingSet tblW specW) ((recsOf tblW specW).getD 0 default).l).bv] ∧
    moEnt 1 tblW specW 0 =
      1 ^ 2 * (mAt (workingSet tblW specW) ((recsOf tblW specW).getD 0 default).k).dop *
        (mAt (workingSet tblW specW) ((recsOf tblW specW).getD 0 default).l).dop ∧
    (AEnt tblW specW 0 = fun j => wAt tblW specW 0 * AoEnt tblW specW 0 j) ∧
    mEnt 1 tblW specW 0 = wAt tblW specW 0 * moEnt 1 tblW specW 0) :=
  ⟨by decide, C2_design_rows 1 tblW specW 0 (by decide)⟩

/-- C3: whenever the inversion succeeds, the returned estimate minimizes
the weighted least-squares objective `‖A x - m‖²`, and the squared
returned uncertainty is `9 * mean(r²) * diag((AoᵀAo)⁻¹)` where
`r = mo - Ao xhat` is the unweighted residual of the returned estimate
(the source stores `err_i = 3 sqrt(mean r²) sqrt(diag_i)`, the square root
of this quantity, so the squared form is the exact content of the claim). -/
theorem C3_wls_solution (twopi : ℚ) (mt : List Meas) (s : LagSpec)
    (x e : Fin 6 → ℚ) (h : solOf twopi mt s = some (x, e)) :
    (∀ y : Fin 6 → ℚ,
      lsObj (numPairs mt s) (AEnt mt s) (mEnt twopi mt s) x ≤
        lsObj (numPairs mt s) (AEnt mt s) (mEnt twopi mt s) y) ∧
    ∀ j : Fin 6, e j =
      9 * ((∑ p ∈ Finset.range (numPairs mt s),
        (moEnt twopi mt s p - ∑ i : Fin 6, AoEnt mt s p i * x i) ^ 2) /
          (numPairs mt s)) *
        (gramOf (numPairs mt s) (AoEnt mt s))⁻¹ j j := by
  unfold solOf solveLS at h
  by_cases hC : (gramOf (numPairs mt s) (AEnt mt s)).det = 0 ∨
      (gramOf (numPairs mt s) (AoEnt mt s)).det = 0
  · rw [if_pos hC] at h
    exact absurd h (by simp)
  · rw [if_neg hC] at h
    push_neg at hC
    obtain ⟨hdA, hdAo⟩ := hC
    have hpair := Option.some.inj h
    have hx : (invMat (gramOf (numPairs mt s) (AEnt mt s))).mulVec
        (atv (numPairs mt s) (AEnt mt s) (mEnt twopi mt s)) = x :=
      congrArg Prod.fst hpair
    have he : ∀ j : Fin 6, e j =
        9 * ((∑ p ∈ Finset.range (numPairs mt s),
          (moEnt twopi mt s p - ∑ i : Fin 6, AoEnt mt s p i *
            ((invMat (gramOf (numPairs mt s) (AEnt mt s))).mulVec
              (atv (numPairs mt s) (AEnt mt s) (mEnt twopi mt s))) i) ^ 2) /
            (numPairs mt s)) *
          invMat (gramOf (numPairs mt s) (AoEnt mt s)) j j :=
      fun j => (congrFun (congrArg Prod.snd hpair) j).symm
    constructor
    · intro y
      rw [← hx]
      exact lsObj_min _ _ _ hdA y
    · intro j
      rw [he j, hx, invMat_eq_inv]

unseal Rat.add Rat.sub Rat.mul Rat.inv Rat.ofScientific in
set_option maxRecDepth 1000000 in
/-- Full evaluation of the inversion on the witness table: the six accepted
rows form the identity design matrix, all diurnal weights are 1, so the
estimate is the all-ones vector with zero residual and zero squared error. -/
theorem C3_sol_eval : solOf 1 tblW specW = some (fun _ => 1, fun _ => 0) := by
  have hrecs : recsOf tblW specW = recsW := by decide
  have hws : workingSet tblW specW = tblW := by decide
  have hwt : weightsOf tblW specW = [1, 1, 1, 1, 1, 1] := by decide
  have hnum : numPairs tblW specW = 6 := by rw [numPairs, hrecs]; rfl
  have hGA : gramOf 6 (AEnt tblW specW) = 1 := by
    simp only [gramOf, AEnt, wAt, hwt, hws, hrecs]
    decide
  have hGAo : gramOf 6 (AoEnt tblW specW) = 1 := by
    simp only [gramOf, AoEnt, hws, hrecs]
    decide
  have hatv : atv 6 (AEnt tblW specW) (mEnt 1 tblW specW) = fun _ => 1 := by
    funext j
    show (∑ p ∈ Finset.range 6, AEnt tblW specW p j * mEnt 1 tblW specW p) = 1
    simp only [AEnt, mEnt, wAt, hwt, hws, hrecs]
    fin_cases j <;> decide
  have hsum : (∑ p ∈ Finset.range 6,
      (moEnt 1 tblW specW p - ∑ i : Fin 6, AoEnt tblW specW p i *
        atv 6 (AEnt tblW specW) (mEnt 1 tblW specW) i) ^ 2) = 0 := by
    rw [hatv]
    simp only [moEnt, AoEnt, hws, hrecs]
    decide
  unfold solOf
  rw [hnum]
  rw [solveLS_of_gram_one 6 (AEnt tblW specW) (mEnt 1 tblW specW)
    (AoEnt tblW specW) (moEnt 1 tblW specW) hGA hGAo]
  rw [hsum, hatv]
  refine congrArg some ?_
  refine congrArg (Prod.mk _) ?_
  funext j
  norm_num

/-- C3 witness: the successful inversion on the witness table together with
the conclusions of the theorem at that run. -/
theorem C3_wls_solution_witness :
    solOf 1 tblW specW = some (fun _ => 1, fun _ => 0) ∧
    ((∀ y : Fin 6 → ℚ,
      lsObj (numPairs tblW specW) (AEnt tblW specW) (mEnt 1 tblW specW) (fun _ => 1) ≤
        lsObj (numPairs tblW specW) (AEnt tblW specW) (mEnt 1 tblW specW) y) ∧
    ∀ j : Fin 6, (fun _ : Fin 6 => (0 : ℚ)) j =
      9 * ((∑ p ∈ Finset.range (numPairs tblW specW),
        (moEnt 1 tblW specW p -
          ∑ i : Fin 6, AoEnt tblW specW p i * (fun _ : Fin 6 => (1 : ℚ)) i) ^ 2) /
          (numPairs tblW specW)) *
        (gramOf (numPairs tblW specW) (AoEnt tblW specW))⁻¹ j j) :=
  ⟨C3_sol_eval, C3_wls_solution 1 tblW specW _ _ C3_sol_eval⟩
